import Mathlib

/-
  Verification development for the spatial proximity / enrichment
  statistics engine of the segmentation repository.

  The embedding follows ark/utils/spatial_analysis_utils.py.
  Distance matrices are total functions on labels with rational entries
  (xarray .loc lookup by coordinate value becomes function application),
  tables are lists, and the global numpy random generator consumed by the
  bootstrap sampler is modelled as an explicit stream of raw draws.
-/

namespace SpatialEnrichment

/-- Indicator for one entry of the binarized distance matrix:
dist_mat_bin[a, b] = 1 when D[a, b] < dist_lim (strict comparison), else 0.
Mirrors (dist_mat.values < dist_lim).astype(np.int8) in
compute_close_cell_num. -/
def binarize (d : ℕ → ℕ → ℚ) (distLim : ℚ) (a b : ℕ) : ℤ :=
  if d a b < distLim then 1 else 0

/-- Sum of the binarized distance matrix subset to rows s1 and columns s2;
this is np.sum(dist_mat_bin.loc[mark1poslabels[j], mark1poslabels[k]]) in
compute_close_cell_num. -/
def countClose (d : ℕ → ℕ → ℚ) (distLim : ℚ) (s1 s2 : List ℕ) : ℤ :=
  (s1.map (fun a => (s2.map (fun b => binarize d distLim a b)).sum)).sum

/-- Embedding of compute_close_cell_num restricted to its pair-counting
core: the positive label sets (mark1poslabels) are taken as input, one list
of labels per marker.  The source iterates k from j upward and mirrors
close_num[k, j] = close_num[j, k], so entry (j, k) always holds the count
computed for the ordered pair (min j k, max j k). -/
def compute_close_cell_num (d : ℕ → ℕ → ℚ) (distLim : ℚ) (sets : List (List ℕ)) :
    List (List ℤ) :=
  (List.range sets.length).map (fun j =>
    (List.range sets.length).map (fun k =>
      countClose d distLim (sets.getD (min j k) []) (sets.getD (max j k) [])))

/-- Entry (j, k) of an integer matrix stored as a list of rows, with 0 as
the out-of-range default. -/
def intEntryD (m : List (List ℤ)) (j k : ℕ) : ℤ := (m.getD j []).getD k 0

/-- Specification-side count: the number of ordered pairs (a, b) with a
drawn from s1, b drawn from s2, whose distance is strictly below the
threshold. -/
def pairCount (d : ℕ → ℕ → ℚ) (distLim : ℚ) (s1 s2 : List ℕ) : ℕ :=
  (s1 ×ˢ s2).countP (fun p => decide (d p.1 p.2 < distLim))

lemma getD_range_map {α : Type} (f : ℕ → α) (dflt : α) {j n : ℕ} (h : j < n) :
    ((List.range n).map f).getD j dflt = f j := by
  rw [List.getD_eq_getElem?_getD, List.getElem?_map, List.getElem?_range h]
  rfl

lemma sum_map_zero {α : Type} (l : List α) : (l.map (fun _ => (0 : ℤ))).sum = 0 := by
  induction l with
  | nil => rfl
  | cons a t ih => simp [ih]

lemma sum_map_add {α : Type} (l : List α) (f g : α → ℤ) :
    (l.map (fun x => f x + g x)).sum = (l.map f).sum + (l.map g).sum := by
  induction l with
  | nil => rfl
  | cons a t ih =>
    simp only [List.map_cons, List.sum_cons, ih]
    ring

lemma sum_sum_comm (f : ℕ → ℕ → ℤ) (s1 s2 : List ℕ) :
    (s1.map (fun a => (s2.map (fun b => f a b)).sum)).sum
      = (s2.map (fun b => (s1.map (fun a => f a b)).sum)).sum := by
  induction s1 with
  | nil => simp [sum_map_zero]
  | cons a t ih =>
    simp only [List.map_cons, List.sum_cons, ih, sum_map_add]

lemma binarize_comm (d : ℕ → ℕ → ℚ) (distLim : ℚ) (hsym : ∀ a b, d a b = d b a)
    (a b : ℕ) : binarize d distLim a b = binarize d distLim b a := by
  unfold binarize
  rw [hsym a b]

lemma countClose_comm (d : ℕ → ℕ → ℚ) (distLim : ℚ) (hsym : ∀ a b, d a b = d b a)
    (s1 s2 : List ℕ) :
    countClose d distLim s1 s2 = countClose d distLim s2 s1 := by
  unfold countClose
  rw [sum_sum_comm]
  apply congrArg List.sum
  apply List.map_congr_left
  intro b _
  apply congrArg List.sum
  apply List.map_congr_left
  intro a _
  exact binarize_comm d distLim hsym a b

lemma inner_sum_eq_countP (d : ℕ → ℕ → ℚ) (distLim : ℚ) (a : ℕ) (s2 : List ℕ) :
    (s2.map (fun b => binarize d distLim a b)).sum
      = (s2.countP (fun b => decide (d a b < distLim)) : ℤ) := by
  induction s2 with
  | nil => rfl
  | cons b t ih =>
    rw [List.map_cons, List.sum_cons, ih, List.countP_cons]
    unfold binarize
    by_cases h : d a b < distLim
    · simp [h]
      ring
    · simp [h]

lemma countClose_eq_pairCount (d : ℕ → ℕ → ℚ) (distLim : ℚ) (s1 s2 : List ℕ) :
    countClose d distLim s1 s2 = (pairCount d distLim s1 s2 : ℤ) := by
  induction s1 with
  | nil => rfl
  | cons a t ih =>
    unfold countClose pairCount at *
    simp only [List.map_cons, List.sum_cons, List.product_cons, List.countP_append,
      List.countP_map, ih]
    rw [inner_sum_eq_countP]
    have hc : List.countP ((fun p : ℕ × ℕ => decide (d p.1 p.2 < distLim)) ∘ fun b => (a, b)) s2
        = List.countP (fun b => decide (d a b < distLim)) s2 := rfl
    rw [hc]
    push_cast
    ring

lemma close_entry (d : ℕ → ℕ → ℚ) (distLim : ℚ) (sets : List (List ℕ)) {j k : ℕ}
    (hj : j < sets.length) (hk : k < sets.length) :
    intEntryD (compute_close_cell_num d distLim sets) j k
      = countClose d distLim (sets.getD (min j k) []) (sets.getD (max j k) []) := by
  unfold intEntryD compute_close_cell_num
  rw [getD_range_map _ _ hj, getD_range_map _ _ hk]

lemma close_length (d : ℕ → ℕ → ℚ) (distLim : ℚ) (sets : List (List ℕ)) :
    (compute_close_cell_num d distLim sets).length = sets.length := by
  unfold compute_close_cell_num
  simp

lemma close_row_length (d : ℕ → ℕ → ℚ) (distLim : ℚ) (sets : List (List ℕ))
    (row : List ℤ) (hrow : row ∈ compute_close_cell_num d distLim sets) :
    row.length = sets.length := by
  unfold compute_close_cell_num at hrow
  rcases List.mem_map.mp hrow with ⟨j, _, rfl⟩
  simp

lemma close_entry_oob (d : ℕ → ℕ → ℚ) (distLim : ℚ) (sets : List (List ℕ)) {j k : ℕ}
    (h : sets.length ≤ j ∨ sets.length ≤ k) :
    intEntryD (compute_close_cell_num d distLim sets) j k = 0 := by
  unfold intEntryD
  rcases h with hj | hk
  · have hrow : (compute_close_cell_num d distLim sets).getD j [] = [] := by
      apply List.getD_eq_default
      rw [close_length]
      exact hj
    rw [hrow]
    rfl
  · by_cases hj : j < sets.length
    · unfold compute_close_cell_num
      rw [getD_range_map _ _ hj]
      apply List.getD_eq_default
      simpa using hk
    · have hrow : (compute_close_cell_num d distLim sets).getD j [] = [] := by
        apply List.getD_eq_default
        rw [close_length]
        omega
      rw [hrow]
      rfl

/-- C1: for a (symmetric) distance matrix, a distance threshold and ordered
positive-label sets, compute_close_cell_num returns an M x M matrix whose
entry (j, k) counts the ordered pairs (a, b), a from set j and b from set k,
at distance strictly below the threshold, and the matrix is symmetric. -/
theorem C1_close_num_counts_pairs_and_symmetric
    (d : ℕ → ℕ → ℚ) (distLim : ℚ) (sets : List (List ℕ))
    (hsym : ∀ a b, d a b = d b a) :
    (compute_close_cell_num d distLim sets).length = sets.length ∧
    (∀ row ∈ compute_close_cell_num d distLim sets, row.length = sets.length) ∧
    (∀ j k, j < sets.length → k < sets.length →
      intEntryD (compute_close_cell_num d distLim sets) j k
        = (pairCount d distLim (sets.getD j []) (sets.getD k []) : ℤ)) ∧
    (∀ j k, intEntryD (compute_close_cell_num d distLim sets) j k
        = intEntryD (compute_close_cell_num d distLim sets) k j) := by
  refine ⟨close_length d distLim sets, close_row_length d distLim sets, ?_, ?_⟩
  · intro j k hj hk
    rw [close_entry d distLim sets hj hk, ← countClose_eq_pairCount]
    rcases le_total j k with h | h
    · rw [min_eq_left h, max_eq_right h]
    · rw [min_eq_right h, max_eq_left h]
      exact countClose_comm d distLim hsym _ _
  · intro j k
    by_cases hj : j < sets.length
    · by_cases hk : k < sets.length
      · rw [close_entry d distLim sets hj hk, close_entry d distLim sets hk hj,
          min_comm, max_comm]
      · rw [close_entry_oob d distLim sets (Or.inr (le_of_not_lt hk)),
          close_entry_oob d distLim sets (Or.inl (le_of_not_lt hk))]
    · rw [close_entry_oob d distLim sets (Or.inl (le_of_not_lt hj)),
        close_entry_oob d distLim sets (Or.inr (le_of_not_lt hj))]

theorem C1_close_num_counts_pairs_and_symmetric_witness :
    intEntryD (compute_close_cell_num (fun a b => ((a + b : ℕ) : ℚ)) 4 [[1], [1, 2]]) 0 1
      = (pairCount (fun a b => ((a + b : ℕ) : ℚ)) 4
          (([[1], [1, 2]] : List (List ℕ)).getD 0 [])
          (([[1], [1, 2]] : List (List ℕ)).getD 1 []) : ℤ) :=
  (C1_close_num_counts_pairs_and_symmetric (fun a b => ((a + b : ℕ) : ℚ)) 4 [[1], [1, 2]]
    (fun a b => by push_cast; ring)).2.2.1 0 1 (by decide) (by decide)

lemma one_le_inner_sum (d : ℕ → ℕ → ℚ) (distLim : ℚ) (hpos : 0 < distLim)
    (s : List ℕ) (a : ℕ) (ha : a ∈ s) (hdiag : d a a = 0) :
    1 ≤ (s.map (fun b => binarize d distLim a b)).sum := by
  have hmem : binarize d distLim a a ∈ s.map (fun b => binarize d distLim a b) :=
    List.mem_map_of_mem _ ha
  have h1 : binarize d distLim a a = 1 := by
    unfold binarize
    rw [hdiag]
    simp [hpos]
  have hnn : ∀ x ∈ s.map (fun b => binarize d distLim a b), (0 : ℤ) ≤ x := by
    intro x hx
    rcases List.mem_map.mp hx with ⟨b, _, rfl⟩
    unfold binarize
    split <;> norm_num
  calc (1 : ℤ) = binarize d distLim a a := h1.symm
    _ ≤ _ := List.single_le_sum hnn _ hmem

lemma sum_map_one {α : Type} (l : List α) : (l.map (fun _ => (1 : ℤ))).sum = l.length := by
  induction l with
  | nil => rfl
  | cons a t ih =>
    simp [ih]
    ring

lemma length_le_countClose_self (d : ℕ → ℕ → ℚ) (distLim : ℚ) (hpos : 0 < distLim)
    (s : List ℕ) (hdiag : ∀ a ∈ s, d a a = 0) :
    (s.length : ℤ) ≤ countClose d distLim s s := by
  unfold countClose
  have h := List.sum_le_sum (l := s) (f := fun _ => (1 : ℤ))
    (g := fun a => (s.map (fun b => binarize d distLim a b)).sum)
    (fun a ha => one_le_inner_sum d distLim hpos s a ha (hdiag a ha))
  rw [sum_map_one] at h
  exact h

/-- C7 (amended with a strictly positive distance threshold): when the
distance matrix has zero diagonal on the members of set j and dist_lim is
positive, every object in set j is counted as close to itself, so the
diagonal entry of the proximity count matrix is at least the size of
set j. -/
theorem C7_diagonal_self_inclusion
    (d : ℕ → ℕ → ℚ) (distLim : ℚ) (sets : List (List ℕ)) (j : ℕ)
    (hpos : 0 < distLim) (hj : j < sets.length)
    (hdiag : ∀ a ∈ sets.getD j [], d a a = 0) :
    ((sets.getD j []).length : ℤ)
      ≤ intEntryD (compute_close_cell_num d distLim sets) j j := by
  rw [close_entry d distLim sets hj hj]
  simp only [min_self, max_self]
  exact length_le_countClose_self d distLim hpos _ hdiag

theorem C7_diagonal_self_inclusion_witness :
    ((([[5]] : List (List ℕ)).getD 0 []).length : ℤ)
      ≤ intEntryD (compute_close_cell_num (fun _ _ => (0 : ℚ)) 1 [[5]]) 0 0 :=
  C7_diagonal_self_inclusion (fun _ _ => (0 : ℚ)) 1 [[5]] 0 (by norm_num) (by decide)
    (fun a _ => rfl)

/-- C7 counterexample to the claim as stated: with dist_lim = 0 (a distance
threshold the claim quantifies over), a one-object set with a zero-diagonal
distance matrix yields a diagonal count of 0, strictly below the set size. -/
theorem C7_counterexample_zero_threshold :
    (∀ a ∈ (([[5]] : List (List ℕ)).getD 0 []), (fun (_ _ : ℕ) => (0 : ℚ)) a a = 0) ∧
    ¬ (((([[5]] : List (List ℕ)).getD 0 []).length : ℤ)
        ≤ intEntryD (compute_close_cell_num (fun _ _ => (0 : ℚ)) 0 [[5]]) 0 0) := by
  constructor
  · intro a _
    rfl
  · decide

/-- Embedding of get_pos_cell_labels_channel: the expression column of the
current marker is compared strictly against the threshold
(current_fov_channel_data[current_marker] > thresh) and the aligned cell
labels at the positive positions are returned. -/
def get_pos_cell_labels_channel (thresh : ℚ) (markerColumn : List ℚ)
    (cellLabels : List ℕ) : List ℕ :=
  ((cellLabels.zip markerColumn).filter (fun p => decide (thresh < p.2))).map Prod.fst

/-- C6: threshold-mode positivity selection returns exactly the labels of
the table rows whose marker expression strictly exceeds the threshold; a
row whose expression equals the threshold is excluded (in particular the
result is empty whenever every expression is at most the threshold). -/
theorem C6_threshold_positivity_is_strict
    (thresh : ℚ) (markerColumn : List ℚ) (cellLabels : List ℕ) :
    (∀ l, l ∈ get_pos_cell_labels_channel thresh markerColumn cellLabels ↔
      ∃ p ∈ cellLabels.zip markerColumn, p.1 = l ∧ thresh < p.2) ∧
    (get_pos_cell_labels_channel thresh markerColumn cellLabels = [] ↔
      ∀ p ∈ cellLabels.zip markerColumn, p.2 ≤ thresh) := by
  constructor
  · intro l
    simp only [get_pos_cell_labels_channel, List.mem_map, List.mem_filter,
      decide_eq_true_eq]
    constructor
    · rintro ⟨p, ⟨hp, hlt⟩, rfl⟩
      exact ⟨p, hp, rfl, hlt⟩
    · rintro ⟨p, hp, rfl, hlt⟩
      exact ⟨p, ⟨hp, hlt⟩, rfl⟩
  · simp only [get_pos_cell_labels_channel, List.map_eq_nil_iff, List.filter_eq_nil_iff,
      decide_eq_true_eq, not_lt]

/-- Largest pixel value occurring in the labeled image. -/
def maxLabel (img : List (List ℕ)) : ℕ := img.flatten.foldr max 0

/-- Distinct positive labels present in the labeled image, in ascending
order; skimage.measure.regionprops enumerates exactly the positive labels
of the label map, in ascending label order. -/
def labelsOf (img : List (List ℕ)) : List ℕ :=
  (List.range (maxLabel img + 1)).filter (fun l => decide (0 < l ∧ l ∈ img.flatten))

/-- Pixel coordinates (row, column) carrying label l in the image. -/
def pixelsOf (img : List (List ℕ)) (l : ℕ) : List (ℕ × ℕ) :=
  ((List.range img.length).map (fun r =>
    ((List.range (img.getD r []).length).filter
      (fun c => decide ((img.getD r []).getD c 0 = l))).map (fun c => (r, c)))).flatten

/-- Centroid of the region labeled l: the arithmetic mean of its pixel
coordinates (prop.centroid of skimage regionprops). -/
def centroid (img : List (List ℕ)) (l : ℕ) : ℚ × ℚ :=
  (((pixelsOf img l).map (fun p => (p.1 : ℚ))).sum / (pixelsOf img l).length,
   ((pixelsOf img l).map (fun p => (p.2 : ℚ))).sum / (pixelsOf img l).length)

/-- Squared Euclidean distance between two centroids; the corresponding
entry of cdist(centroids, centroids) is the square root of this value. -/
def sqDist (c1 c2 : ℚ × ℚ) : ℚ := (c1.1 - c2.1) ^ 2 + (c1.2 - c2.2) ^ 2

/-- Embedding of calc_dist_matrix for a single fov, up to the final square
root: the centroid list is built in label order and all pairwise squared
centroid distances are tabulated, exactly as cdist(centroids, centroids)
does entrywise (squared). -/
def calc_dist_matrix_sq (img : List (List ℕ)) : List (List ℚ) :=
  ((labelsOf img).map (centroid img)).map (fun c1 =>
    ((labelsOf img).map (centroid img)).map (fun c2 => sqDist c1 c2))

/-- Entry (j, k) of a rational matrix stored as a list of rows, with 0 as
the out-of-range default. -/
def ratEntryD (m : List (List ℚ)) (j k : ℕ) : ℚ := (m.getD j []).getD k 0

lemma getD_map_row {α : Type} (xs : List α) (F : α → List ℚ) {i : ℕ}
    (hi : i < xs.length) :
    (xs.map F).getD i [] = F (xs.get ⟨i, hi⟩) := by
  rw [List.getD_eq_getElem?_getD, List.getElem?_map, List.getElem?_eq_getElem hi]
  rfl

lemma ratEntryD_map_map {α : Type} (xs : List α) (f : α → α → ℚ) {i j : ℕ}
    (hi : i < xs.length) (hj : j < xs.length) :
    ratEntryD (xs.map (fun a => xs.map (fun b => f a b))) i j
      = f (xs.get ⟨i, hi⟩) (xs.get ⟨j, hj⟩) := by
  unfold ratEntryD
  rw [getD_map_row xs _ hi, List.getD_eq_getElem?_getD, List.getElem?_map,
    List.getElem?_eq_getElem hj]
  rfl

lemma ratEntryD_map_map_oob {α : Type} (xs : List α) (f : α → α → ℚ) {i j : ℕ}
    (h : xs.length ≤ i ∨ xs.length ≤ j) :
    ratEntryD (xs.map (fun a => xs.map (fun b => f a b))) i j = 0 := by
  unfold ratEntryD
  rcases h with hi | hj
  · have hrow : (xs.map (fun a => xs.map (fun b => f a b))).getD i [] = [] := by
      apply List.getD_eq_default
      simpa using hi
    rw [hrow]
    rfl
  · by_cases hi : i < xs.length
    · rw [getD_map_row xs _ hi]
      apply List.getD_eq_default
      simpa using hj
    · have hrow : (xs.map (fun a => xs.map (fun b => f a b))).getD i [] = [] := by
        apply List.getD_eq_default
        simp
        omega
      rw [hrow]
      rfl

lemma sqDist_comm (c1 c2 : ℚ × ℚ) : sqDist c1 c2 = sqDist c2 c1 := by
  unfold sqDist
  ring

lemma sqDist_self (c : ℚ × ℚ) : sqDist c c = 0 := by
  unfold sqDist
  ring

lemma sqDist_nonneg (c1 c2 : ℚ × ℚ) : 0 ≤ sqDist c1 c2 :=
  add_nonneg (sq_nonneg _) (sq_nonneg _)

lemma calc_dist_matrix_sq_symm (img : List (List ℕ)) (i j : ℕ) :
    ratEntryD (calc_dist_matrix_sq img) i j = ratEntryD (calc_dist_matrix_sq img) j i := by
  unfold calc_dist_matrix_sq
  set cents := (labelsOf img).map (centroid img) with hc
  by_cases hi : i < cents.length
  · by_cases hj : j < cents.length
    · rw [ratEntryD_map_map cents _ hi hj, ratEntryD_map_map cents _ hj hi, sqDist_comm]
    · rw [ratEntryD_map_map_oob cents _ (Or.inr (le_of_not_lt hj)),
        ratEntryD_map_map_oob cents _ (Or.inl (le_of_not_lt hj))]
  · rw [ratEntryD_map_map_oob cents _ (Or.inl (le_of_not_lt hi)),
      ratEntryD_map_map_oob cents _ (Or.inr (le_of_not_lt hi))]

lemma calc_dist_matrix_sq_diag (img : List (List ℕ)) (i : ℕ) :
    ratEntryD (calc_dist_matrix_sq img) i i = 0 := by
  unfold calc_dist_matrix_sq
  set cents := (labelsOf img).map (centroid img) with hc
  by_cases hi : i < cents.length
  · rw [ratEntryD_map_map cents _ hi hi, sqDist_self]
  · rw [ratEntryD_map_map_oob cents _ (Or.inl (le_of_not_lt hi))]

lemma calc_dist_matrix_sq_nonneg (img : List (List ℕ)) (i j : ℕ) :
    0 ≤ ratEntryD (calc_dist_matrix_sq img) i j := by
  unfold calc_dist_matrix_sq
  set cents := (labelsOf img).map (centroid img) with hc
  by_cases hi : i < cents.length
  · by_cases hj : j < cents.length
    · rw [ratEntryD_map_map cents _ hi hj]
      exact sqDist_nonneg _ _
    · rw [ratEntryD_map_map_oob cents _ (Or.inr (le_of_not_lt hj))]
  · rw [ratEntryD_map_map_oob cents _ (Or.inl (le_of_not_lt hi))]

/-- C5: every distance matrix produced by the builder is symmetric with a
zero diagonal and nonnegative entries; this holds for the squared-distance
matrix and hence for the Euclidean matrix obtained by entrywise square
roots. -/
theorem C5_dist_matrix_symmetric_zero_diag_nonneg (img : List (List ℕ)) (i j : ℕ) :
    ratEntryD (calc_dist_matrix_sq img) i j = ratEntryD (calc_dist_matrix_sq img) j i ∧
    ratEntryD (calc_dist_matrix_sq img) i i = 0 ∧
    0 ≤ ratEntryD (calc_dist_matrix_sq img) i j ∧
    Real.sqrt (ratEntryD (calc_dist_matrix_sq img) i j)
      = Real.sqrt (ratEntryD (calc_dist_matrix_sq img) j i) ∧
    Real.sqrt (ratEntryD (calc_dist_matrix_sq img) i i) = 0 ∧
    0 ≤ Real.sqrt (ratEntryD (calc_dist_matrix_sq img) i j) := by
  refine ⟨calc_dist_matrix_sq_symm img i j, calc_dist_matrix_sq_diag img i,
    calc_dist_matrix_sq_nonneg img i j, ?_, ?_, Real.sqrt_nonneg _⟩
  · rw [calc_dist_matrix_sq_symm img i j]
  · rw [calc_dist_matrix_sq_diag img i]
    simp

lemma mem_le_foldr_max (l : List ℕ) (x : ℕ) (hx : x ∈ l) : x ≤ l.foldr max 0 := by
  induction l with
  | nil => cases hx
  | cons a t ih =>
    rcases List.mem_cons.mp hx with rfl | hx
    · exact le_max_left _ _
    · exact le_trans (ih hx) (le_max_right _ _)

lemma labelsOf_sorted (img : List (List ℕ)) : (labelsOf img).Sorted (· < ·) := by
  unfold labelsOf
  exact (List.pairwise_lt_range _).filter _

lemma labelsOf_mem (img : List (List ℕ)) (l : ℕ) :
    l ∈ labelsOf img ↔ 0 < l ∧ l ∈ img.flatten := by
  unfold labelsOf maxLabel
  rw [List.mem_filter, decide_eq_true_eq, List.mem_range]
  constructor
  · rintro ⟨_, h⟩
    exact h
  · rintro ⟨h0, hmem⟩
    exact ⟨Nat.lt_succ_of_le (mem_le_foldr_max _ _ hmem), h0, hmem⟩

/-- Labeled image used by the Pythagorean-triple test: three single-pixel
objects whose centroids are at (0,0), (3,4) and (3,0), so that the three
pairwise centroid distances are 5, 3 and 4. -/
def testImg : List (List ℕ) :=
  [[1, 0, 0, 0, 0],
   [0, 0, 0, 0, 0],
   [0, 0, 0, 0, 0],
   [3, 0, 0, 0, 2]]

lemma sqrt_eq_of_sq (a b : ℝ) (hb : 0 ≤ b) (h : a = b ^ 2) : Real.sqrt a = b := by
  rw [h, Real.sqrt_sq hb]

/-- C4: the distance matrix builder indexes its matrix by the distinct
positive labels of the image in ascending order, its (i, j) entry is the
Euclidean distance between the arithmetic-mean centroids of the i-th and
j-th labels (tabulated as the squared distance, the Euclidean value being
its square root), and on a 3-4-5 right-triangle image the matrix is
exactly [[0,5,3],[5,0,4],[3,4,0]]. -/
theorem C4_dist_matrix_labels_and_pythagorean :
    (∀ img, (labelsOf img).Sorted (· < ·)) ∧
    (∀ img l, l ∈ labelsOf img ↔ 0 < l ∧ l ∈ img.flatten) ∧
    (∀ img, calc_dist_matrix_sq img
      = (labelsOf img).map (fun a => (labelsOf img).map (fun b =>
          sqDist (centroid img a) (centroid img b)))) ∧
    labelsOf testImg = [1, 2, 3] ∧
    calc_dist_matrix_sq testImg = [[0, 25, 9], [25, 0, 16], [9, 16, 0]] ∧
    (calc_dist_matrix_sq testImg).map (fun row => row.map (fun q => Real.sqrt (q : ℝ)))
      = [[0, 5, 3], [5, 0, 4], [3, 4, 0]] := by
  have hlab : labelsOf testImg = [1, 2, 3] := by decide
  have hp1 : pixelsOf testImg 1 = [(0, 0)] := by decide
  have hp2 : pixelsOf testImg 2 = [(3, 4)] := by decide
  have hp3 : pixelsOf testImg 3 = [(3, 0)] := by decide
  have hc1 : centroid testImg 1 = (0, 0) := by
    rw [centroid, hp1]
    norm_num
  have hc2 : centroid testImg 2 = (3, 4) := by
    rw [centroid, hp2]
    norm_num
  have hc3 : centroid testImg 3 = (3, 0) := by
    rw [centroid, hp3]
    norm_num
  have hsq : calc_dist_matrix_sq testImg = [[0, 25, 9], [25, 0, 16], [9, 16, 0]] := by
    rw [calc_dist_matrix_sq, hlab]
    simp only [List.map_cons, List.map_nil, hc1, hc2, hc3, sqDist]
    norm_num
  refine ⟨labelsOf_sorted, labelsOf_mem, ?_, hlab, hsq, ?_⟩
  · intro img
    unfold calc_dist_matrix_sq
    simp [List.map_map, Function.comp_def]
  · rw [hsq]
    have h9 : Real.sqrt (9 : ℝ) = 3 := sqrt_eq_of_sq 9 3 (by norm_num) (by norm_num)
    have h16 : Real.sqrt (16 : ℝ) = 4 := sqrt_eq_of_sq 16 4 (by norm_num) (by norm_num)
    have h25 : Real.sqrt (25 : ℝ) = 5 := sqrt_eq_of_sq 25 5 (by norm_num) (by norm_num)
    simp [h9, h16, h25]

/-- Value class of the IEEE double z score (close_num - muhat) / sigmahat,
where sigmahat is the square root of the rational variance var: when var is
0, dividing a nonzero numerator by 0.0 yields a signed infinity and 0/0.0
yields NaN; otherwise the value is finite and is recorded symbolically by
its exact numerator and variance. -/
inductive ZVal where
  | finite (num : ℚ) (var : ℚ)
  | posInf
  | negInf
  | nan
deriving DecidableEq

/-- Build the z value from the exact numerator close_num - muhat and the
exact null variance (sigmahat squared), following IEEE division. -/
def mkZ (num var : ℚ) : ZVal :=
  if var = 0 then
    if 0 < num then ZVal.posInf else if num < 0 then ZVal.negInf else ZVal.nan
  else ZVal.finite num var

/-- The comparison z > 0 as the source evaluates it on the IEEE value:
positive infinity exceeds 0, NaN comparisons are false, and a finite value
num / sqrt var with var > 0 is positive exactly when num is. -/
def zGtZero : ZVal → Bool
  | ZVal.finite num _ => decide (0 < num)
  | ZVal.posInf => true
  | ZVal.negInf => false
  | ZVal.nan => false

/-- Empirical mean of the bootstrap samples; scipy.stats.norm.fit returns
it as the location parameter. -/
def listMean (l : List ℤ) : ℚ := (l.sum : ℚ) / l.length

/-- Empirical variance of the bootstrap samples; scipy.stats.norm.fit
returns its square root (the maximum-likelihood standard deviation, no
degrees-of-freedom correction) as the scale parameter. -/
def listVar (l : List ℤ) : ℚ :=
  ((l.map (fun x : ℤ => ((x : ℚ) - listMean l) ^ 2)).sum) / l.length

/-- Per-pair output record of calculate_enrichment_stats. -/
structure PairStats where
  muhat : ℚ
  sigmahat2 : ℚ
  z : ZVal
  p_pos : ℚ
  p_neg : ℚ
  p_summary : ℚ
deriving DecidableEq

/-- Embedding of one (j, k) iteration of calculate_enrichment_stats:
norm.fit over the bootstrap samples, the z score, the two one-sided
p values with continuity correction (tmp >= close_num and tmp < close_num),
and the summary p value selected by the comparison z > 0. -/
def calculate_enrichment_stats_pair (obs : ℤ) (samples : List ℤ) : PairStats :=
  let mu := listMean samples
  let v := listVar samples
  let z := mkZ ((obs : ℚ) - mu) v
  let ppos := (1 + (samples.countP (fun x => decide (obs ≤ x)) : ℚ))
      / (samples.length + 1)
  let pneg := (1 + (samples.countP (fun x => decide (x < obs)) : ℚ))
      / (samples.length + 1)
  { muhat := mu, sigmahat2 := v, z := z, p_pos := ppos, p_neg := pneg,
    p_summary := if zGtZero z then ppos else pneg }

/-- Embedding of calculate_enrichment_stats over whole matrices: entry
(j, k) of close_num against the bootstrap samples close_num_rand[j, k, :]. -/
def calculate_enrichment_stats (closeNum : ℕ → ℕ → ℤ)
    (closeNumRand : ℕ → ℕ → List ℤ) (markerNum : ℕ) : List (List PairStats) :=
  (List.range markerNum).map (fun j => (List.range markerNum).map (fun k =>
    calculate_enrichment_stats_pair (closeNum j k) (closeNumRand j k)))

/-- Entry (j, k) of the statistics matrix, defaulting out of range to the
statistics of an empty configuration. -/
def statsEntryD (m : List (List PairStats)) (j k : ℕ) : PairStats :=
  (m.getD j []).getD k (calculate_enrichment_stats_pair 0 [])

lemma statsEntryD_calc (closeNum : ℕ → ℕ → ℤ) (closeNumRand : ℕ → ℕ → List ℤ)
    {markerNum j k : ℕ} (hj : j < markerNum) (hk : k < markerNum) :
    statsEntryD (calculate_enrichment_stats closeNum closeNumRand markerNum) j k
      = calculate_enrichment_stats_pair (closeNum j k) (closeNumRand j k) := by
  unfold statsEntryD calculate_enrichment_stats
  rw [getD_range_map _ _ hj, getD_range_map _ _ hk]

lemma countP_eq_countP_range (l : List ℤ) (p : ℤ → Bool) :
    l.countP p = (List.range l.length).countP (fun r => p (l.getD r 0)) := by
  induction l with
  | nil => rfl
  | cons a t ih =>
    rw [List.countP_cons, List.length_cons, List.range_succ_eq_map,
      List.countP_cons, List.countP_map]
    have h1 : ((fun r => p ((a :: t).getD r 0)) ∘ Nat.succ)
        = (fun r => p (t.getD r 0)) := rfl
    rw [h1, ← ih]
    rfl

lemma countP_eq_length_filter_range (l : List ℤ) (p : ℤ → Bool) :
    l.countP p = ((List.range l.length).filter (fun r => p (l.getD r 0))).length := by
  rw [countP_eq_countP_range, List.countP_eq_length_filter]

/-- C2: for every observed count matrix and null tensor, the enrichment
statistics at pair (j, k) have p_pos = (1 + #{indices r with null sample r
at least the observed count}) / (B + 1), p_neg = (1 + #{indices r with
null sample r strictly below the observed count}) / (B + 1), and the
summary p value equals p_pos when z > 0 and p_neg otherwise. -/
theorem C2_enrichment_p_value_formulas
    (closeNum : ℕ → ℕ → ℤ) (closeNumRand : ℕ → ℕ → List ℤ) (markerNum j k : ℕ)
    (hj : j < markerNum) (hk : k < markerNum) :
    (statsEntryD (calculate_enrichment_stats closeNum closeNumRand markerNum) j k).p_pos
      = (1 + ((((List.range (closeNumRand j k).length).filter
            (fun r => decide (closeNum j k ≤ (closeNumRand j k).getD r 0))).length : ℚ)))
        / ((closeNumRand j k).length + 1) ∧
    (statsEntryD (calculate_enrichment_stats closeNum closeNumRand markerNum) j k).p_neg
      = (1 + ((((List.range (closeNumRand j k).length).filter
            (fun r => decide ((closeNumRand j k).getD r 0 < closeNum j k))).length : ℚ)))
        / ((closeNumRand j k).length + 1) ∧
    (zGtZero (statsEntryD (calculate_enrichment_stats closeNum closeNumRand markerNum) j k).z
        = true →
      (statsEntryD (calculate_enrichment_stats closeNum closeNumRand markerNum) j k).p_summary
        = (statsEntryD (calculate_enrichment_stats closeNum closeNumRand markerNum) j k).p_pos) ∧
    (zGtZero (statsEntryD (calculate_enrichment_stats closeNum closeNumRand markerNum) j k).z
        = false →
      (statsEntryD (calculate_enrichment_stats closeNum closeNumRand markerNum) j k).p_summary
        = (statsEntryD (calculate_enrichment_stats closeNum closeNumRand markerNum) j k).p_neg) := by
  rw [statsEntryD_calc closeNum closeNumRand hj hk]
  unfold calculate_enrichment_stats_pair
  refine ⟨?_, ?_, ?_, ?_⟩
  · simp only []
    rw [countP_eq_length_filter_range]
  · simp only []
    rw [countP_eq_length_filter_range]
  · intro hz
    simp only [] at hz ⊢
    rw [hz]
    simp
  · intro hz
    simp only [] at hz ⊢
    rw [hz]
    simp

theorem C2_enrichment_p_value_formulas_witness :
    (statsEntryD (calculate_enrichment_stats (fun _ _ => 1) (fun _ _ => [0, 2]) 1) 0 0).p_pos
      = (1 + ((((List.range ([0, 2] : List ℤ).length).filter
            (fun r => decide ((1 : ℤ) ≤ ([0, 2] : List ℤ).getD r 0))).length : ℚ)))
        / (([0, 2] : List ℤ).length + 1) :=
  (C2_enrichment_p_value_formulas (fun _ _ => 1) (fun _ _ => [0, 2]) 1 0 0
    (by decide) (by decide)).1

lemma countP_le_add_countP_lt (obs : ℤ) (samples : List ℤ) :
    samples.countP (fun x => decide (obs ≤ x))
      + samples.countP (fun x => decide (x < obs)) = samples.length := by
  induction samples with
  | nil => rfl
  | cons a t ih =>
    rw [List.countP_cons, List.countP_cons, List.length_cons]
    by_cases h : obs ≤ a
    · simp [h, not_lt.mpr h]
      omega
    · simp [h, lt_of_not_ge h]
      omega

lemma pair_p_sum (obs : ℤ) (samples : List ℤ) :
    (calculate_enrichment_stats_pair obs samples).p_pos
      + (calculate_enrichment_stats_pair obs samples).p_neg
      = ((samples.length : ℚ) + 2) / ((samples.length : ℚ) + 1) := by
  unfold calculate_enrichment_stats_pair
  simp only []
  rw [div_add_div_same]
  have hc : ((samples.countP (fun x => decide (obs ≤ x)) : ℚ))
      + ((samples.countP (fun x => decide (x < obs)) : ℚ)) = (samples.length : ℚ) := by
    exact_mod_cast congrArg (fun n : ℕ => (n : ℚ)) (countP_le_add_countP_lt obs samples)
  have hnum : (1 + (samples.countP (fun x => decide (obs ≤ x)) : ℚ))
      + (1 + (samples.countP (fun x => decide (x < obs)) : ℚ))
      = (samples.length : ℚ) + 2 := by
    linarith
  rw [hnum]

/-- C10: the two one-sided p values partition the B null samples between
the comparisons tmp >= observed and tmp < observed, so they always sum to
exactly (B + 2) / (B + 1); in particular their sum strictly exceeds 1 and
they can never both lie below one half. -/
theorem C10_one_sided_p_values_sum_identity
    (closeNum : ℕ → ℕ → ℤ) (closeNumRand : ℕ → ℕ → List ℤ) (markerNum j k : ℕ)
    (hj : j < markerNum) (hk : k < markerNum) :
    (statsEntryD (calculate_enrichment_stats closeNum closeNumRand markerNum) j k).p_pos
        + (statsEntryD (calculate_enrichment_stats closeNum closeNumRand markerNum) j k).p_neg
      = (((closeNumRand j k).length : ℚ) + 2) / (((closeNumRand j k).length : ℚ) + 1) ∧
    1 < (statsEntryD (calculate_enrichment_stats closeNum closeNumRand markerNum) j k).p_pos
        + (statsEntryD (calculate_enrichment_stats closeNum closeNumRand markerNum) j k).p_neg ∧
    ¬((statsEntryD (calculate_enrichment_stats closeNum closeNumRand markerNum) j k).p_pos < 1 / 2
      ∧ (statsEntryD (calculate_enrichment_stats closeNum closeNumRand markerNum) j k).p_neg < 1 / 2) := by
  rw [statsEntryD_calc closeNum closeNumRand hj hk]
  have hsum := pair_p_sum (closeNum j k) (closeNumRand j k)
  have hBpos : (0 : ℚ) < ((closeNumRand j k).length : ℚ) + 1 := by positivity
  have h1 : 1 < (((closeNumRand j k).length : ℚ) + 2) / (((closeNumRand j k).length : ℚ) + 1) := by
    rw [one_lt_div hBpos]
    linarith
  have h2 : 1 < (calculate_enrichment_stats_pair (closeNum j k) (closeNumRand j k)).p_pos
      + (calculate_enrichment_stats_pair (closeNum j k) (closeNumRand j k)).p_neg := by
    rw [hsum]
    exact h1
  refine ⟨hsum, h2, ?_⟩
  rintro ⟨ha, hb⟩
  linarith

theorem C10_one_sided_p_values_sum_identity_witness :
    (statsEntryD (calculate_enrichment_stats (fun _ _ => 1) (fun _ _ => [0, 2]) 1) 0 0).p_pos
        + (statsEntryD (calculate_enrichment_stats (fun _ _ => 1) (fun _ _ => [0, 2]) 1) 0 0).p_neg
      = ((([0, 2] : List ℤ).length : ℚ) + 2) / ((([0, 2] : List ℤ).length : ℚ) + 1) :=
  (C10_one_sided_p_values_sum_identity (fun _ _ => 1) (fun _ _ => [0, 2]) 1 0 0
    (by decide) (by decide)).1

lemma sum_of_const (c : ℤ) (l : List ℤ) (hall : ∀ x ∈ l, x = c) :
    l.sum = c * l.length := by
  induction l with
  | nil => simp
  | cons a t ih =>
    have ha : a = c := hall a (by simp)
    have ht : ∀ x ∈ t, x = c := fun x hx => hall x (by simp [hx])
    rw [List.sum_cons, ih ht, ha, List.length_cons]
    push_cast
    ring

lemma listMean_const (c : ℤ) (l : List ℤ) (hne : l ≠ []) (hall : ∀ x ∈ l, x = c) :
    listMean l = c := by
  unfold listMean
  rw [sum_of_const c l hall]
  have hl : ((l.length : ℚ)) ≠ 0 :=
    Nat.cast_ne_zero.mpr (fun h => hne (List.length_eq_zero.mp h))
  push_cast
  rw [mul_div_assoc, div_self hl, mul_one]

lemma sum_sq_dev_const (c : ℤ) (mu : ℚ) (hmu : mu = (c : ℚ)) :
    ∀ l : List ℤ, (∀ x ∈ l, x = c) →
      (l.map (fun x : ℤ => ((x : ℚ) - mu) ^ 2)).sum = 0 := by
  intro l
  induction l with
  | nil =>
    intro _
    rfl
  | cons a t ih =>
    intro hall
    have ha : a = c := hall a (by simp)
    rw [List.map_cons, List.sum_cons, ih (fun x hx => hall x (by simp [hx])), ha, hmu]
    ring

lemma listVar_const (c : ℤ) (l : List ℤ) (hne : l ≠ []) (hall : ∀ x ∈ l, x = c) :
    listVar l = 0 := by
  unfold listVar
  have hmean := listMean_const c l hne hall
  rw [sum_sq_dev_const c (listMean l) hmean l hall, zero_div]

/-- C8: when the B null samples of pair (j, k) are all equal, the fitted
variance is zero and the z score is the IEEE result of dividing by a zero
standard deviation, NaN or a signed infinity; no error is raised and the
remaining fields are still produced, the summary p value still being one
of the two one-sided p values. -/
theorem C8_zero_variance_null_gives_nonfinite_z
    (closeNum : ℕ → ℕ → ℤ) (closeNumRand : ℕ → ℕ → List ℤ) (markerNum j k : ℕ)
    (c : ℤ) (hj : j < markerNum) (hk : k < markerNum)
    (hne : closeNumRand j k ≠ []) (hall : ∀ x ∈ closeNumRand j k, x = c) :
    ((statsEntryD (calculate_enrichment_stats closeNum closeNumRand markerNum) j k).z = ZVal.nan
      ∨ (statsEntryD (calculate_enrichment_stats closeNum closeNumRand markerNum) j k).z = ZVal.posInf
      ∨ (statsEntryD (calculate_enrichment_stats closeNum closeNumRand markerNum) j k).z = ZVal.negInf) ∧
    (statsEntryD (calculate_enrichment_stats closeNum closeNumRand markerNum) j k).sigmahat2 = 0 ∧
    ((statsEntryD (calculate_enrichment_stats closeNum closeNumRand markerNum) j k).p_summary
        = (statsEntryD (calculate_enrichment_stats closeNum closeNumRand markerNum) j k).p_pos
      ∨ (statsEntryD (calculate_enrichment_stats closeNum closeNumRand markerNum) j k).p_summary
        = (statsEntryD (calculate_enrichment_stats closeNum closeNumRand markerNum) j k).p_neg) := by
  rw [statsEntryD_calc closeNum closeNumRand hj hk]
  unfold calculate_enrichment_stats_pair
  simp only []
  have hvar := listVar_const c _ hne hall
  refine ⟨?_, hvar, ?_⟩
  · rw [hvar]
    unfold mkZ
    rw [if_pos rfl]
    rcases lt_trichotomy (0 : ℚ) ((closeNum j k : ℚ) - listMean (closeNumRand j k))
      with h | h | h
    · right
      left
      rw [if_pos h]
    · left
      rw [if_neg (by rw [← h]; exact lt_irrefl 0), if_neg (by rw [← h]; exact lt_irrefl 0)]
    · right
      right
      rw [if_neg (lt_asymm h), if_pos h]
  · by_cases hz : zGtZero (mkZ ((closeNum j k : ℚ) - listMean (closeNumRand j k))
        (listVar (closeNumRand j k))) = true
    · left
      rw [if_pos hz]
    · right
      rw [if_neg hz]

theorem C8_zero_variance_null_gives_nonfinite_z_witness :
    ((statsEntryD (calculate_enrichment_stats (fun _ _ => 5) (fun _ _ => [2, 2]) 1) 0 0).z = ZVal.nan
      ∨ (statsEntryD (calculate_enrichment_stats (fun _ _ => 5) (fun _ _ => [2, 2]) 1) 0 0).z = ZVal.posInf
      ∨ (statsEntryD (calculate_enrichment_stats (fun _ _ => 5) (fun _ _ => [2, 2]) 1) 0 0).z = ZVal.negInf) ∧
    (statsEntryD (calculate_enrichment_stats (fun _ _ => 5) (fun _ _ => [2, 2]) 1) 0 0).sigmahat2 = 0 ∧
    ((statsEntryD (calculate_enrichment_stats (fun _ _ => 5) (fun _ _ => [2, 2]) 1) 0 0).p_summary
        = (statsEntryD (calculate_enrichment_stats (fun _ _ => 5) (fun _ _ => [2, 2]) 1) 0 0).p_pos
      ∨ (statsEntryD (calculate_enrichment_stats (fun _ _ => 5) (fun _ _ => [2, 2]) 1) 0 0).p_summary
        = (statsEntryD (calculate_enrichment_stats (fun _ _ => 5) (fun _ _ => [2, 2]) 1) 0 0).p_neg) :=
  C8_zero_variance_null_gives_nonfinite_z (fun _ _ => 5) (fun _ _ => [2, 2]) 1 0 0 2
    (by decide) (by decide) (by decide) (by decide)

/-- Row-major flattening of the binarized distance matrix over the labels
of the fov: dist_mat_bin.values.flatten() in compute_close_cell_num_random. -/
def flatBin (labels : List ℕ) (d : ℕ → ℕ → ℚ) (distLim : ℚ) : List ℤ :=
  (labels.map (fun a => labels.map (fun b => binarize d distLim a b))).flatten

/-- Number of raw draws consumed by np.random.choice before the loops of
compute_close_cell_num_random reach pair (j, k) with j ≤ k: the complete
rows before j plus the part of row j before column k, each pair (j', k')
costing marker_nums[j'] * marker_nums[k'] * bootstrap_num draws. -/
def drawsBefore (m : List ℕ) (B j k : ℕ) : ℕ :=
  B * (((List.range j).map (fun i => m.getD i 0 * ((m.drop i).sum))).sum
       + m.getD j 0 * (((m.drop j).take (k - j)).sum))

/-- One surrogate count: np.random.choice fills an (n, bootstrap_num) array
in row-major order from the stream of raw draws starting at t0, and the
count of bootstrap column r sums the n entries (i, r), each a value of the
flattened binarized matrix selected by the raw draw modulo its length. -/
def sampleCount (flat : List ℤ) (g : ℕ → ℕ) (t0 B r n : ℕ) : ℤ :=
  ((List.range n).map (fun i => flat.getD (g (t0 + i * B + r) % flat.length) 0)).sum

/-- Embedding of compute_close_cell_num_random: for j ≤ k the counts for
pair (j, k) are drawn from the stream, m1n * m2n draws per bootstrap
column, and for j > k the mirrored value close_num_rand[k, j, :] is used,
exactly as the source writes the symmetric entry. -/
def compute_close_cell_num_random (m labels : List ℕ) (d : ℕ → ℕ → ℚ)
    (distLim : ℚ) (B : ℕ) (g : ℕ → ℕ) : List (List (List ℤ)) :=
  (List.range m.length).map (fun j =>
    (List.range m.length).map (fun k =>
      (List.range B).map (fun r =>
        sampleCount (flatBin labels d distLim) g
          (drawsBefore m B (min j k) (max j k)) B r
          (m.getD (min j k) 0 * m.getD (max j k) 0))))

lemma sum_map_const_nat {α : Type} (l : List α) (c : ℕ) :
    (l.map (fun _ => c)).sum = l.length * c := by
  induction l with
  | nil => simp
  | cons a t ih =>
    simp [ih]
    ring

lemma flatBin_length (labels : List ℕ) (d : ℕ → ℕ → ℚ) (distLim : ℚ) :
    (flatBin labels d distLim).length = labels.length * labels.length := by
  unfold flatBin
  rw [List.length_flatten, List.map_map]
  have h : (List.length ∘ fun a => labels.map (fun b => binarize d distLim a b))
      = fun _ => labels.length := by
    funext a
    simp
  rw [h, sum_map_const_nat]

lemma rand_entry (m labels : List ℕ) (d : ℕ → ℕ → ℚ) (distLim : ℚ) (B : ℕ)
    (g : ℕ → ℕ) {j k : ℕ} (hj : j < m.length) (hk : k < m.length) :
    ((compute_close_cell_num_random m labels d distLim B g).getD j []).getD k []
      = (List.range B).map (fun r =>
          sampleCount (flatBin labels d distLim) g
            (drawsBefore m B (min j k) (max j k)) B r
            (m.getD (min j k) 0 * m.getD (max j k) 0)) := by
  unfold compute_close_cell_num_random
  rw [getD_range_map _ _ hj, getD_range_map _ _ hk]

lemma rand_length (m labels : List ℕ) (d : ℕ → ℕ → ℚ) (distLim : ℚ) (B : ℕ)
    (g : ℕ → ℕ) :
    (compute_close_cell_num_random m labels d distLim B g).length = m.length := by
  unfold compute_close_cell_num_random
  simp

lemma rand_entry_oob (m labels : List ℕ) (d : ℕ → ℕ → ℚ) (distLim : ℚ) (B : ℕ)
    (g : ℕ → ℕ) {j k : ℕ} (h : m.length ≤ j ∨ m.length ≤ k) :
    ((compute_close_cell_num_random m labels d distLim B g).getD j []).getD k [] = [] := by
  rcases h with hj | hk
  · have hrow : (compute_close_cell_num_random m labels d distLim B g).getD j [] = [] := by
      apply List.getD_eq_default
      rw [rand_length]
      exact hj
    rw [hrow]
    rfl
  · by_cases hj : j < m.length
    · unfold compute_close_cell_num_random
      rw [getD_range_map _ _ hj]
      apply List.getD_eq_default
      simpa using hk
    · have hrow : (compute_close_cell_num_random m labels d distLim B g).getD j [] = [] := by
        apply List.getD_eq_default
        rw [rand_length]
        omega
      rw [hrow]
      rfl

/-- C3: the value-resampling null sampler returns an M x M x B integer
tensor, symmetric across its first two axes, in which every surrogate
count is a sum of marker_nums[j] * marker_nums[k] values taken (with
replacement, indices may repeat) from the flattened binarized distance
matrix. -/
theorem C3_null_sampler_shape_symmetry_and_provenance
    (m labels : List ℕ) (d : ℕ → ℕ → ℚ) (distLim : ℚ) (B : ℕ) (g : ℕ → ℕ) :
    (compute_close_cell_num_random m labels d distLim B g).length = m.length ∧
    (∀ row ∈ compute_close_cell_num_random m labels d distLim B g,
      row.length = m.length) ∧
    (∀ j k, j < m.length → k < m.length →
      (((compute_close_cell_num_random m labels d distLim B g).getD j []).getD k []).length
        = B) ∧
    (∀ j k, ((compute_close_cell_num_random m labels d distLim B g).getD j []).getD k []
        = ((compute_close_cell_num_random m labels d distLim B g).getD k []).getD j []) ∧
    (labels ≠ [] → ∀ j k r, j < m.length → k < m.length → r < B →
      ∃ idx : ℕ → ℕ, (∀ i, idx i < (flatBin labels d distLim).length) ∧
        ((((compute_close_cell_num_random m labels d distLim B g).getD j []).getD k []).getD r 0
          = ((List.range (m.getD j 0 * m.getD k 0)).map
              (fun i => (flatBin labels d distLim).getD (idx i) 0)).sum)) := by
  refine ⟨rand_length m labels d distLim B g, ?_, ?_, ?_, ?_⟩
  · intro row hrow
    unfold compute_close_cell_num_random at hrow
    rcases List.mem_map.mp hrow with ⟨j, _, rfl⟩
    simp
  · intro j k hj hk
    rw [rand_entry m labels d distLim B g hj hk]
    simp
  · intro j k
    by_cases hj : j < m.length
    · by_cases hk : k < m.length
      · rw [rand_entry m labels d distLim B g hj hk,
          rand_entry m labels d distLim B g hk hj, min_comm, max_comm]
      · rw [rand_entry_oob m labels d distLim B g (Or.inr (le_of_not_lt hk)),
          rand_entry_oob m labels d distLim B g (Or.inl (le_of_not_lt hk))]
    · rw [rand_entry_oob m labels d distLim B g (Or.inl (le_of_not_lt hj)),
        rand_entry_oob m labels d distLim B g (Or.inr (le_of_not_lt hj))]
  · intro hlab j k r hj hk hr
    have hL : 0 < (flatBin labels d distLim).length := by
      rw [flatBin_length]
      have hpos : 0 < labels.length := List.length_pos.mpr hlab
      exact Nat.mul_pos hpos hpos
    have hn : m.getD (min j k) 0 * m.getD (max j k) 0 = m.getD j 0 * m.getD k 0 := by
      rcases le_total j k with h | h
      · rw [min_eq_left h, max_eq_right h]
      · rw [min_eq_right h, max_eq_left h, Nat.mul_comm]
    refine ⟨fun i => g (drawsBefore m B (min j k) (max j k) + i * B + r)
        % (flatBin labels d distLim).length,
      fun i => Nat.mod_lt _ hL, ?_⟩
    rw [rand_entry m labels d distLim B g hj hk, getD_range_map _ _ hr]
    unfold sampleCount
    rw [hn]

theorem C3_null_sampler_shape_symmetry_and_provenance_witness :
    ∃ idx : ℕ → ℕ, (∀ i, idx i < (flatBin [1] (fun _ _ => (0 : ℚ)) 1).length) ∧
      ((((compute_close_cell_num_random [1] [1] (fun _ _ => (0 : ℚ)) 1 1
            (fun n => n)).getD 0 []).getD 0 []).getD 0 0
        = ((List.range (([1] : List ℕ).getD 0 0 * ([1] : List ℕ).getD 0 0)).map
            (fun i => (flatBin [1] (fun _ _ => (0 : ℚ)) 1).getD (idx i) 0)).sum) :=
  (C3_null_sampler_shape_symmetry_and_provenance [1] [1] (fun _ _ => (0 : ℚ)) 1 1
    (fun n => n)).2.2.2.2 (List.cons_ne_nil 1 []) 0 0 0 (by decide) (by decide) (by decide)

/-- C9: the bootstrap sampler is a deterministic function of its inputs
and the random stream it consumes: when the generator is seeded so that
the two raw-draw streams agree, two runs on identical inputs return
identical tensors. -/
theorem C9_sampler_reproducible_for_fixed_seed
    (m labels : List ℕ) (d : ℕ → ℕ → ℚ) (distLim : ℚ) (B : ℕ) (g1 g2 : ℕ → ℕ)
    (hseed : ∀ n, g1 n = g2 n) :
    compute_close_cell_num_random m labels d distLim B g1
      = compute_close_cell_num_random m labels d distLim B g2 := by
  have hg : g1 = g2 := funext hseed
  rw [hg]

theorem C9_sampler_reproducible_for_fixed_seed_witness :
    compute_close_cell_num_random [2] [1, 2] (fun _ _ => (0 : ℚ)) 1 2 (fun n => n + 0)
      = compute_close_cell_num_random [2] [1, 2] (fun _ _ => (0 : ℚ)) 1 2 (fun n => n) :=
  C9_sampler_reproducible_for_fixed_seed [2] [1, 2] (fun _ _ => (0 : ℚ)) 1 2
    (fun n => n + 0) (fun n => n) (fun _ => rfl)

end SpatialEnrichment
